import Mathlib

/-!
# Verification of `file-extension-in-import` (eslint-plugin-node)

Shallow embedding of `src/lib/rules/file-extension-in-import.js`.

Strings are modelled as `List Char`.  The Node.js `path` collaborator
(`path.extname`, `path.basename(p, ext)`, `path.dirname`, posix flavour) is
modelled by executable Lean functions that follow Node's documented
backward-scan semantics.  The filesystem (`fs.readdirSync`) is a parameter
`FS : List Char → Option (List (List Char))`: `none` models the thrown error
that the rule's `try/catch` swallows, `some entries` a successful listing.
-/

namespace FileExtRule

/-- A filesystem oracle: directory path ↦ listing, or `none` when
`fs.readdirSync` would throw (missing directory, permission denied, …). -/
abbrev FS := List Char → Option (List (List Char))

/-- The rule's bare-module test `/[/\\]/u.test(name)`: does the specifier
contain a path separator character? -/
def hasSep (name : List Char) : Bool :=
  name.any (fun c => c == '/' || c == '\\')

/-- The last path segment of `p` after stripping trailing `'/'` separators
(the portion Node's `path.posix` scanners operate on). -/
def lastSegment (p : List Char) : List Char :=
  ((p.reverse.dropWhile (fun c => c == '/')).takeWhile (fun c => c != '/')).reverse

/-- Node `path.posix.extname`: the portion of the last segment from its last
dot on, except that a segment with no dot, a dot in first position (hidden
file) or a segment equal to `".."` yields the empty extension.
`(lastSegment p).reverse.takeWhile (· != '.')` is the run of characters after
the last dot, reversed; comparing its length with the segment's length detects
the no-dot and leading-dot cases. -/
def extname (p : List Char) : List Char :=
  if ((lastSegment p).reverse.takeWhile (fun c => c != '.')).length
      = (lastSegment p).reverse.length then []
  else if ((lastSegment p).reverse.takeWhile (fun c => c != '.')).length + 1
      = (lastSegment p).reverse.length then []
  else if lastSegment p = ['.', '.'] then []
  else '.' :: ((lastSegment p).reverse.takeWhile (fun c => c != '.')).reverse

/-- Node `path.posix.basename(p, path.posix.extname(p))`: the last segment of
`p` with the extension stripped (the whole segment when the extension is empty
or equals the whole segment). -/
def basenameStripExt (p : List Char) : List Char :=
  let base := lastSegment p
  let ext := extname p
  if ext.isEmpty || base == ext then base
  else base.take (base.length - ext.length)

/-- Node `path.posix.dirname`: everything before the separator that closes the
last segment; `"."` when there is no usable separator, with Node's special
cases for a rooted path (`"/"`, `"//"`). -/
def dirname (p : List Char) : List Char :=
  if p.isEmpty then ['.']
  else
    let q2 := (p.reverse.dropWhile (fun c => c == '/')).dropWhile (fun c => c != '/')
    if q2.tail.isEmpty then (if p.headD ' ' == '/' then ['/'] else ['.'])
    else if p.headD ' ' == '/' && q2.tail.length == 1 then ['/', '/']
    else q2.tail.reverse

/-- `getExistingExtensions` from the rule: list the directory of `filePath`,
keep the entries with the same extension-stripped basename, return their
extensions; `[]` when the listing fails (the `catch` branch). -/
def getExistingExtensions (fs : FS) (filePath : List Char) : List (List Char) :=
  let basename := basenameStripExt filePath
  match fs (dirname filePath) with
  | none => []
  | some entries =>
      (entries.filter (fun filename => basenameStripExt filename == basename)).map extname

/-- The rule's `const ext = resolvedExt || existingExts[0]` (JS `||` takes the
second operand when `resolvedExt` is the falsy empty string; `existingExts[0]`
is `existingExts.headD []`). -/
def canonicalExt (resolvedExt : List Char) (existingExts : List (List Char)) : List Char :=
  if resolvedExt.isEmpty then existingExts.headD [] else resolvedExt

/-- Rule options after `create`'s defaulting: `defaultStyle` is
`context.options[0] || "always"`, `overrideStyle` is `context.options[1] || {}`
modelled as a partial map from extension strings to style strings. -/
structure Config where
  defaultStyle : List Char
  overrideStyle : List Char → Option (List Char)

/-- The rule's `const style = overrideStyle[ext] || defaultStyle` (an absent
key and a falsy empty-string value both fall back to `defaultStyle`). -/
def styleFor (cfg : Config) (ext : List Char) : List Char :=
  match cfg.overrideStyle ext with
  | some s => if s.isEmpty then cfg.defaultStyle else s
  | none => cfg.defaultStyle

/-- An import/export target as produced by the target enumerator: the resolved
absolute file path (`none` when resolution failed), the specifier text `name`,
and the absolute source span `[range0, range1)` of the specifier literal
(`node.range`). -/
structure Target where
  filePath : Option (List Char)
  name : List Char
  range0 : Nat
  range1 : Nat

inductive MessageId
  | requireExt
  | forbidExt
deriving DecidableEq

/-- A text edit over absolute source offsets: `fixer.insertTextBeforeRange`
at a position, or `fixer.removeRange` of `[start, stop)`. -/
inductive Edit
  | insert (pos : Nat) (text : List Char)
  | remove (start stop : Nat)
deriving DecidableEq

/-- A reported diagnostic: message id, the `data.ext` payload, and the fix the
fixer callback returns (`none` models the callback returning `null`). -/
structure Diagnostic where
  messageId : MessageId
  ext : List Char
  fix : Option Edit
deriving DecidableEq

/-- JS `name.lastIndexOf(ext)` occurrence test: `ext` occurs in `name` at
index `i`. -/
def occursAt (sub l : List Char) (i : Nat) : Bool :=
  (l.drop i).take sub.length == sub

/-- JS `l.lastIndexOf(sub)`: the largest index at which `sub` occurs in `l`
(`none` models JS's `-1`).  `lastIndexOf l [] = some l.length`, as in JS. -/
def lastIndexOf (l sub : List Char) : Option Nat :=
  ((List.range (l.length + 1)).filter (occursAt sub l)).getLast?

/-- The style strings the rule compares against. -/
def alwaysStyle : List Char := ['a', 'l', 'w', 'a', 'y', 's']

def neverStyle : List Char := ['n', 'e', 'v', 'e', 'r']

/-- The target's resolved path with JS falsiness collapsed: an absent path
(`none`) and the empty string behave identically under the rule's
`!filePath` test, so both are represented by `[]`. -/
def resolvedPath (t : Target) : List Char :=
  t.filePath.getD []

/-- The rule's local `existingExts` for a target. -/
def existingExts (fs : FS) (t : Target) : List (List Char) :=
  getExistingExtensions fs (resolvedPath t)

/-- The rule's local `ext` (canonical extension) for a target. -/
def extOf (fs : FS) (t : Target) : List Char :=
  canonicalExt (extname (resolvedPath t)) (existingExts fs t)

/-- The rule's `verify` function: at most one diagnostic per target.
Mirrors the source line by line: the `!filePath || !/[/\\]/u.test(name)`
guard, the indeterminate-extension guard, then the `always` / `never`
branches with their fixer callbacks (which return `null` unless sibling
discovery found exactly one extension).  `(lastIndexOf ...).getD 0` models
JS `lastIndexOf`; the `-1` default is unreachable in this branch because
the branch condition forces `ext` to occur in `name`. -/
def verify (cfg : Config) (fs : FS) (t : Target) : Option Diagnostic :=
  if (resolvedPath t).isEmpty then none
  else if hasSep t.name = false then none
  else if (extname (resolvedPath t)).isEmpty ∧ (existingExts fs t).length ≠ 1 then none
  else if styleFor cfg (extOf fs t) = alwaysStyle ∧ extOf fs t ≠ extname t.name then
    some { messageId := MessageId.requireExt
           ext := extOf fs t
           fix := if (existingExts fs t).length ≠ 1 then none
                  else some (Edit.insert (t.range1 - 1) (extOf fs t)) }
  else if styleFor cfg (extOf fs t) = neverStyle ∧ extOf fs t = extname t.name then
    some { messageId := MessageId.forbidExt
           ext := extOf fs t
           fix := if (existingExts fs t).length ≠ 1 then none
                  else some (Edit.remove
                    (t.range0 + 1 + (lastIndexOf t.name (extOf fs t)).getD 0)
                    (t.range0 + 1 + (lastIndexOf t.name (extOf fs t)).getD 0
                      + (extOf fs t).length)) }
  else none

/-- The rule's `create`: for a virtual filename (starting with `'<'`) the empty
visitor is returned, so no target is examined; otherwise every enumerated
target goes through `verify` and the reported diagnostics are collected. -/
def run (filename : List Char) (cfg : Config) (fs : FS) (targets : List Target) :
    List Diagnostic :=
  if ['<'].isPrefixOf filename then []
  else targets.filterMap (verify cfg fs)

/-- Apply a fix (absolute offsets) to a piece of source text that starts at
absolute offset `base`. -/
def applyEdit (src : List Char) (base : Nat) : Edit → List Char
  | Edit.insert pos text => src.take (pos - base) ++ text ++ src.drop (pos - base)
  | Edit.remove s e => src.take (s - base) ++ src.drop (e - base)

/-- The raw source text of the specifier literal: opening quote, the specifier
text, closing quote (the unescaped-literal case, where
`range1 = range0 + name.length + 2`). -/
def literalRaw (t : Target) : List Char :=
  '"' :: (t.name ++ ['"'])

/-- The specifier text after applying a fix to the literal's raw source text:
strip the quotes back off. -/
def fixedName (t : Target) (e : Edit) : List Char :=
  ((applyEdit (literalRaw t) t.range0 e).drop 1).dropLast

/-- The target obtained by re-enumerating after the fix was applied: same
resolved path, fixed specifier text, span recomputed for the new literal. -/
def fixedTarget (t : Target) (e : Edit) : Target :=
  { t with name := fixedName t e, range1 := t.range0 + (fixedName t e).length + 2 }

/-! ## Helper lemmas -/

lemma occursAt_take {sub l : List Char} {i : Nat} (h : occursAt sub l i = true) :
    (l.drop i).take sub.length = sub := by
  simpa [occursAt] using h

lemma occursAt_bound {sub l : List Char} {i : Nat} (h : occursAt sub l i = true)
    (hi : i ≤ l.length) : i + sub.length ≤ l.length := by
  have hlen := congrArg List.length (occursAt_take h)
  simp only [List.length_take, List.length_drop] at hlen
  omega

lemma lastIndexOf_spec {l sub : List Char} {i : Nat} (h : lastIndexOf l sub = some i) :
    occursAt sub l i = true ∧ i ≤ l.length := by
  have hm := List.mem_of_getLast?_eq_some h
  rw [List.mem_filter] at hm
  exact ⟨hm.2, by have := List.mem_range.mp hm.1; omega⟩

lemma lastIndexOf_of_occurs {l sub : List Char} {i : Nat}
    (h : occursAt sub l i = true) (hi : i ≤ l.length) :
    ∃ j, lastIndexOf l sub = some j := by
  have hmem : i ∈ (List.range (l.length + 1)).filter (occursAt sub l) := by
    rw [List.mem_filter]
    exact ⟨List.mem_range.mpr (by omega), h⟩
  have hne : (List.range (l.length + 1)).filter (occursAt sub l) ≠ [] :=
    List.ne_nil_of_mem hmem
  obtain ⟨j, hj⟩ := Option.isSome_iff_exists.mp (List.getLast?_isSome.mpr hne)
  exact ⟨j, hj⟩

lemma lastIndexOf_nil_sub (l : List Char) : lastIndexOf l [] = some l.length := by
  unfold lastIndexOf
  have hfil : (List.range (l.length + 1)).filter (occursAt [] l) = List.range (l.length + 1) := by
    apply List.filter_eq_self.mpr
    intro a _
    simp [occursAt]
  rw [hfil, List.range_succ]
  rw [List.getLast?_eq_some_iff]
  exact ⟨List.range l.length, rfl⟩

lemma occurs_of_decomp {l sub pre post : List Char} (h : l = pre ++ sub ++ post) :
    ∃ i, i ≤ l.length ∧ occursAt sub l i = true := by
  refine ⟨pre.length, by rw [h]; simp, ?_⟩
  unfold occursAt
  rw [h, List.append_assoc, List.drop_left, List.take_left]
  simp

lemma takeWhile_dot_decomp : ∀ (r : List Char),
    (r.takeWhile (fun c => c != '.')).length ≠ r.length →
    ∃ m, r = r.takeWhile (fun c => c != '.') ++ '.' :: m
  | [], h => by
      exfalso
      exact h (by simp)
  | c :: r, h => by
      by_cases hc : c = '.'
      · subst hc
        exact ⟨r, by simp [List.takeWhile_cons]⟩
      · have htw : (c :: r).takeWhile (fun c => c != '.')
            = c :: r.takeWhile (fun c => c != '.') := by
          simp [List.takeWhile_cons, hc]
        have h' : (r.takeWhile (fun c => c != '.')).length ≠ r.length := by
          rw [htw] at h
          simpa using h
        obtain ⟨m, hm⟩ := takeWhile_dot_decomp r h'
        exact ⟨m, by rw [htw, List.cons_append, ← hm]⟩

lemma three_part_rev {x tw1 tw2 dw2 : List Char}
    (h : x.reverse = tw1 ++ (tw2 ++ dw2)) :
    x = dw2.reverse ++ (tw2.reverse ++ tw1.reverse) := by
  have hx := congrArg List.reverse h
  rw [List.reverse_reverse] at hx
  rw [hx]
  simp [List.reverse_append, List.append_assoc]

lemma lastSegment_decomp (p : List Char) :
    ∃ pre post, p = pre ++ lastSegment p ++ post := by
  refine ⟨((p.reverse.dropWhile (fun c => c == '/')).dropWhile (fun c => c != '/')).reverse,
          (p.reverse.takeWhile (fun c => c == '/')).reverse, ?_⟩
  have h1 : p.reverse.takeWhile (fun c => c == '/') ++ p.reverse.dropWhile (fun c => c == '/')
      = p.reverse := List.takeWhile_append_dropWhile _ _
  have h2 : (p.reverse.dropWhile (fun c => c == '/')).takeWhile (fun c => c != '/')
      ++ (p.reverse.dropWhile (fun c => c == '/')).dropWhile (fun c => c != '/')
      = p.reverse.dropWhile (fun c => c == '/') := List.takeWhile_append_dropWhile _ _
  unfold lastSegment
  rw [List.append_assoc]
  exact three_part_rev (by rw [h2, h1])

lemma rev_dot_decomp {r tw m : List Char} (hm : r = tw ++ '.' :: m) :
    r.reverse = m.reverse ++ '.' :: tw.reverse := by
  subst hm
  simp

lemma extname_eq_drop (p : List Char) (h : extname p ≠ []) :
    ∃ m, lastSegment p = m ++ extname p := by
  have h1 : ¬ (((lastSegment p).reverse.takeWhile (fun c => c != '.')).length
      = (lastSegment p).reverse.length) := by
    intro hlen
    exact h (by unfold extname; rw [if_pos hlen])
  have h2 : ¬ (((lastSegment p).reverse.takeWhile (fun c => c != '.')).length + 1
      = (lastSegment p).reverse.length) := by
    intro hlen
    exact h (by unfold extname; rw [if_neg h1, if_pos hlen])
  have h3 : ¬ (lastSegment p = ['.', '.']) := by
    intro hdd
    exact h (by unfold extname; rw [if_neg h1, if_neg h2, if_pos hdd])
  have hval : extname p
      = '.' :: ((lastSegment p).reverse.takeWhile (fun c => c != '.')).reverse := by
    unfold extname
    rw [if_neg h1, if_neg h2, if_neg h3]
  obtain ⟨m, hm⟩ := takeWhile_dot_decomp (lastSegment p).reverse h1
  refine ⟨m.reverse, ?_⟩
  rw [hval]
  have hrev : (lastSegment p).reverse.reverse
      = m.reverse ++ '.' :: ((lastSegment p).reverse.takeWhile (fun c => c != '.')).reverse :=
    rev_dot_decomp hm
  rw [List.reverse_reverse] at hrev
  exact hrev

lemma extname_occurs (p : List Char) (h : extname p ≠ []) :
    ∃ i, i ≤ p.length ∧ occursAt (extname p) p i = true := by
  obtain ⟨m, hm⟩ := extname_eq_drop p h
  obtain ⟨pre, post, hp⟩ := lastSegment_decomp p
  rw [hm] at hp
  generalize hE : extname p = E at hp ⊢
  exact occurs_of_decomp (show p = (pre ++ m) ++ E ++ post by
    rw [hp]; simp [List.append_assoc])

lemma always_ne_never : alwaysStyle ≠ neverStyle := by decide

/-- Inversion of `verify`: whenever a diagnostic came out, the resolved path
was non-empty, the specifier contained a separator, the canonical extension
was determinable, and the diagnostic is exactly the one built by the
`always` or the `never` branch. -/
lemma verify_some_inv {cfg : Config} {fs : FS} {t : Target} {d : Diagnostic}
    (h : verify cfg fs t = some d) :
    (resolvedPath t).isEmpty = false ∧ hasSep t.name = true ∧
      ¬((extname (resolvedPath t)).isEmpty ∧ (existingExts fs t).length ≠ 1) ∧
      ((styleFor cfg (extOf fs t) = alwaysStyle ∧ extOf fs t ≠ extname t.name ∧
        d = { messageId := MessageId.requireExt
              ext := extOf fs t
              fix := if (existingExts fs t).length ≠ 1 then none
                     else some (Edit.insert (t.range1 - 1) (extOf fs t)) })
       ∨
       (styleFor cfg (extOf fs t) = neverStyle ∧ extOf fs t = extname t.name ∧
        d = { messageId := MessageId.forbidExt
              ext := extOf fs t
              fix := if (existingExts fs t).length ≠ 1 then none
                     else some (Edit.remove
                       (t.range0 + 1 + (lastIndexOf t.name (extOf fs t)).getD 0)
                       (t.range0 + 1 + (lastIndexOf t.name (extOf fs t)).getD 0
                         + (extOf fs t).length)) })) := by
  unfold verify at h
  by_cases h1 : (resolvedPath t).isEmpty = true
  · rw [if_pos h1] at h; exact Option.noConfusion h
  rw [if_neg h1] at h
  by_cases h2 : hasSep t.name = false
  · rw [if_pos h2] at h; exact Option.noConfusion h
  rw [if_neg h2] at h
  refine ⟨by simpa using h1, by simpa using h2, ?_⟩
  by_cases h3 : (extname (resolvedPath t)).isEmpty ∧ (existingExts fs t).length ≠ 1
  · rw [if_pos h3] at h; exact Option.noConfusion h
  rw [if_neg h3] at h
  refine ⟨h3, ?_⟩
  by_cases h4 : styleFor cfg (extOf fs t) = alwaysStyle ∧ extOf fs t ≠ extname t.name
  · rw [if_pos h4] at h
    exact Or.inl ⟨h4.1, h4.2, (Option.some.inj h).symm⟩
  rw [if_neg h4] at h
  by_cases h5 : styleFor cfg (extOf fs t) = neverStyle ∧ extOf fs t = extname t.name
  · rw [if_pos h5] at h
    exact Or.inr ⟨h5.1, h5.2, (Option.some.inj h).symm⟩
  · rw [if_neg h5] at h
    exact Option.noConfusion h

/-- Evaluation of `verify` once the three guards are known to pass: what is
left is exactly the two style branches. -/
lemma verify_eval {cfg : Config} {fs : FS} {t : Target}
    (h1 : (resolvedPath t).isEmpty = false) (h2 : hasSep t.name = true)
    (h3 : ¬((extname (resolvedPath t)).isEmpty ∧ (existingExts fs t).length ≠ 1)) :
    verify cfg fs t =
      (if styleFor cfg (extOf fs t) = alwaysStyle ∧ extOf fs t ≠ extname t.name then
        some { messageId := MessageId.requireExt
               ext := extOf fs t
               fix := if (existingExts fs t).length ≠ 1 then none
                      else some (Edit.insert (t.range1 - 1) (extOf fs t)) }
      else if styleFor cfg (extOf fs t) = neverStyle ∧ extOf fs t = extname t.name then
        some { messageId := MessageId.forbidExt
               ext := extOf fs t
               fix := if (existingExts fs t).length ≠ 1 then none
                      else some (Edit.remove
                        (t.range0 + 1 + (lastIndexOf t.name (extOf fs t)).getD 0)
                        (t.range0 + 1 + (lastIndexOf t.name (extOf fs t)).getD 0
                          + (extOf fs t).length)) }
      else none) := by
  unfold verify
  rw [if_neg (by simp [h1]), if_neg (by simp [h2]), if_neg h3]

lemma hasSep_append_left {a b : List Char} (h : hasSep a = true) :
    hasSep (a ++ b) = true := by
  unfold hasSep at h ⊢
  rw [List.any_append, h, Bool.true_or]

lemma fixedTarget_filePath (t : Target) (e : Edit) :
    (fixedTarget t e).filePath = t.filePath := rfl

lemma fixedTarget_name (t : Target) (e : Edit) :
    (fixedTarget t e).name = fixedName t e := rfl

lemma extOf_fixedTarget (fs : FS) (t : Target) (e : Edit) :
    extOf fs (fixedTarget t e) = extOf fs t := rfl

lemma existingExts_fixedTarget (fs : FS) (t : Target) (e : Edit) :
    existingExts fs (fixedTarget t e) = existingExts fs t := rfl

/-- Applying the `always`-branch insertion fix appends the canonical extension
to the specifier text (the insertion point is just before the closing quote,
given an unescaped literal whose span matches its text). -/
lemma fixedName_insert (t : Target) (text : List Char)
    (hrange : t.range1 = t.range0 + t.name.length + 2) :
    fixedName t (Edit.insert (t.range1 - 1) text) = t.name ++ text := by
  simp only [fixedName, applyEdit, literalRaw]
  have h1 : t.range1 - 1 - t.range0 = t.name.length + 1 := by omega
  rw [h1, List.take_succ_cons, List.drop_succ_cons, List.take_left, List.drop_left]
  simp [List.cons_append, ← List.append_assoc]

/-- Applying the `never`-branch removal fix deletes the `elen` characters at
offset `idx` of the specifier text. -/
lemma fixedName_remove (t : Target) (idx elen : Nat) (hle : idx + elen ≤ t.name.length) :
    fixedName t (Edit.remove (t.range0 + 1 + idx) (t.range0 + 1 + idx + elen))
      = t.name.take idx ++ t.name.drop (idx + elen) := by
  simp only [fixedName, applyEdit, literalRaw]
  have h1 : t.range0 + 1 + idx - t.range0 = idx + 1 := by omega
  have h2 : t.range0 + 1 + idx + elen - t.range0 = (idx + elen) + 1 := by omega
  rw [h1, h2, List.take_succ_cons, List.drop_succ_cons]
  have hlen1 : (t.name.take idx).length = idx := by
    rw [List.length_take]
    omega
  have htake : (t.name ++ ['\"']).take idx = t.name.take idx := by
    rw [show t.name ++ ['\"'] = t.name.take idx ++ (t.name.drop idx ++ ['\"']) by
      rw [← List.append_assoc, List.take_append_drop]]
    exact List.take_left' hlen1
  have hlen2 : (t.name.take (idx + elen)).length = idx + elen := by
    rw [List.length_take]
    omega
  have hdrop : (t.name ++ ['\"']).drop (idx + elen)
      = t.name.drop (idx + elen) ++ ['\"'] := by
    rw [show t.name ++ ['\"']
        = t.name.take (idx + elen) ++ (t.name.drop (idx + elen) ++ ['\"']) by
      rw [← List.append_assoc, List.take_append_drop]]
    exact List.drop_left' hlen2
  rw [htake, hdrop]
  simp [List.cons_append, ← List.append_assoc]

/-! ## Concrete data used by witnesses and counterexamples -/

/-- Default configuration: style `always`, no overrides. -/
def cfgAlways : Config := ⟨alwaysStyle, fun _ => none⟩

/-- Configuration with style `never`, no overrides. -/
def cfgNever : Config := ⟨neverStyle, fun _ => none⟩

/-- Configuration with default `always` and an override `".js" ↦ "never"`. -/
def cfgOvr : Config :=
  ⟨alwaysStyle, fun e => if e = ['.', 'j', 's'] then some neverStyle else none⟩

/-- A filesystem with one directory `/p` containing the single file `a.js`. -/
def fsOne : FS :=
  fun d => if d = ['/', 'p'] then some [['a', '.', 'j', 's']] else none

/-- A filesystem with `/p` containing `a.js` and `a.ts` (ambiguous siblings). -/
def fsTwo : FS :=
  fun d => if d = ['/', 'p'] then some [['a', '.', 'j', 's'], ['a', '.', 't', 's']] else none

/-- A filesystem on which every directory listing fails. -/
def fsErr : FS := fun _ => none

/-- Target: specifier `"./a"` resolved to `/p/a.js`, literal span `[10, 15)`. -/
def tReq : Target :=
  ⟨some ['/', 'p', '/', 'a', '.', 'j', 's'], ['.', '/', 'a'], 10, 15⟩

/-- The diagnostic `verify` produces for `tReq` under `cfgAlways`/`fsOne`. -/
def dReq : Diagnostic :=
  ⟨MessageId.requireExt, ['.', 'j', 's'], some (Edit.insert 14 ['.', 'j', 's'])⟩

/-- Target: specifier `"./a.js"` resolved to `/p/a.js`, literal span `[0, 8)`. -/
def tFor : Target :=
  ⟨some ['/', 'p', '/', 'a', '.', 'j', 's'], ['.', '/', 'a', '.', 'j', 's'], 0, 8⟩

/-- Target with a trailing separator: specifier `"./a.js/"` resolved to
`/p/a.js`, literal span `[0, 9)`. -/
def tSl : Target :=
  ⟨some ['/', 'p', '/', 'a', '.', 'j', 's'], ['.', '/', 'a', '.', 'j', 's', '/'], 0, 9⟩

/-- Target: specifier `"./x.js.js"` resolved to `/p/x.js.js`, span `[0, 11)`. -/
def tXX : Target :=
  ⟨some ['/', 'p', '/', 'x', '.', 'j', 's', '.', 'j', 's'],
   ['.', '/', 'x', '.', 'j', 's', '.', 'j', 's'], 0, 11⟩

/-- A filesystem with `/p` containing the single file `x.js.js`. -/
def fsXX : FS :=
  fun d => if d = ['/', 'p'] then some [['x', '.', 'j', 's', '.', 'j', 's']] else none

/-! ## Claim theorems -/

/-- C1: a diagnostic is emitted only when the specifier text contains a path
separator, the resolved path is present and non-empty, and a determinable
canonical extension exists (the resolved path has a non-empty extension, or
the sibling extension set has exactly one entry); in particular a target with
a bare specifier (no separator) never produces a diagnostic. -/
theorem C1_diagnostic_guards (cfg : Config) (fs : FS) (t : Target) :
    (∀ d, verify cfg fs t = some d →
      hasSep t.name = true ∧
      (∃ fp, t.filePath = some fp ∧ fp ≠ [] ∧
        (extname fp ≠ [] ∨ (getExistingExtensions fs fp).length = 1))) ∧
    (hasSep t.name = false → verify cfg fs t = none) := by
  constructor
  · intro d h
    obtain ⟨h1, h2, h3, _⟩ := verify_some_inv h
    refine ⟨h2, ?_⟩
    cases hfp : t.filePath with
    | none => rw [resolvedPath, hfp] at h1; simp at h1
    | some fp =>
        have hrp : resolvedPath t = fp := by rw [resolvedPath, hfp]; rfl
        refine ⟨fp, rfl, ?_, ?_⟩
        · intro hnil
          rw [hrp, hnil] at h1
          simp at h1
        · simp only [existingExts, hrp] at h3
          by_cases he : extname fp = []
          · right
            by_contra hlen
            exact h3 ⟨by simp [he], hlen⟩
          · exact Or.inl he
  · intro hs
    unfold verify
    by_cases h1 : (resolvedPath t).isEmpty = true
    · rw [if_pos h1]
    · rw [if_neg h1, if_pos hs]

/-- Witness for C1 at a concrete reporting target. -/
theorem C1_diagnostic_guards_witness :
    hasSep tReq.name = true ∧
    (∃ fp, tReq.filePath = some fp ∧ fp ≠ [] ∧
      (extname fp ≠ [] ∨ (getExistingExtensions fsOne fp).length = 1)) :=
  (C1_diagnostic_guards cfgAlways fsOne tReq).1 dReq (by decide)

/-- C2: past the guards, a resolved path with a non-empty extension makes that
extension canonical (the reported `ext`) regardless of the sibling set; an
extensionless resolved path takes the single discovered sibling extension when
there is exactly one, and otherwise the target is skipped silently. -/
theorem C2_canonical_choice (cfg : Config) (fs : FS) (t : Target) (fp : List Char)
    (hfp : t.filePath = some fp) :
    (extname fp ≠ [] → ∀ d, verify cfg fs t = some d → d.ext = extname fp) ∧
    (extname fp = [] → (getExistingExtensions fs fp).length = 1 →
       ∀ d, verify cfg fs t = some d → d.ext = (getExistingExtensions fs fp).headD []) ∧
    (extname fp = [] → (getExistingExtensions fs fp).length ≠ 1 →
       verify cfg fs t = none) := by
  have hrp : resolvedPath t = fp := by rw [resolvedPath, hfp]; rfl
  refine ⟨?_, ?_, ?_⟩
  · intro he d h
    obtain ⟨_, _, _, hbr⟩ := verify_some_inv h
    have hext : d.ext = extOf fs t := by
      rcases hbr with ⟨_, _, rfl⟩ | ⟨_, _, rfl⟩ <;> rfl
    rw [hext]
    simp only [extOf, existingExts, canonicalExt, hrp]
    rw [if_neg (by simp [he])]
  · intro he _ d h
    obtain ⟨_, _, _, hbr⟩ := verify_some_inv h
    have hext : d.ext = extOf fs t := by
      rcases hbr with ⟨_, _, rfl⟩ | ⟨_, _, rfl⟩ <;> rfl
    rw [hext]
    simp only [extOf, existingExts, canonicalExt, hrp]
    rw [if_pos (by simp [he])]
  · intro he hlen
    unfold verify
    by_cases h1 : (resolvedPath t).isEmpty = true
    · rw [if_pos h1]
    rw [if_neg h1]
    by_cases h2 : hasSep t.name = false
    · rw [if_pos h2]
    rw [if_neg h2]
    rw [if_pos (show (extname (resolvedPath t)).isEmpty = true
        ∧ (existingExts fs t).length ≠ 1 from
      ⟨by simp [hrp, he], by simpa [existingExts, hrp] using hlen⟩)]

/-- Witness for C2 at a concrete reporting target. -/
theorem C2_canonical_choice_witness :
    dReq.ext = extname ['/', 'p', '/', 'a', '.', 'j', 's'] :=
  (C2_canonical_choice cfgAlways fsOne tReq ['/', 'p', '/', 'a', '.', 'j', 's'] rfl).1
    (by decide) dReq (by decide)

/-- C3: for a determinable canonical extension under effective style `always`,
a `requireExt` diagnostic with `data.ext` equal to the canonical extension is
reported exactly when the specifier's extension differs from it, and the fix,
when offered, inserts the canonical extension at absolute offset
`node.range[1] - 1` (immediately before the closing quote). -/
theorem C3_always_branch (cfg : Config) (fs : FS) (t : Target) (fp : List Char)
    (hfp : t.filePath = some fp) (hne : fp ≠ []) (hsep : hasSep t.name = true)
    (hdet : extname fp ≠ [] ∨ (getExistingExtensions fs fp).length = 1)
    (hstyle : styleFor cfg (canonicalExt (extname fp) (getExistingExtensions fs fp))
        = alwaysStyle) :
    (extname t.name = canonicalExt (extname fp) (getExistingExtensions fs fp) →
       verify cfg fs t = none) ∧
    (extname t.name ≠ canonicalExt (extname fp) (getExistingExtensions fs fp) →
       verify cfg fs t = some
         { messageId := MessageId.requireExt
           ext := canonicalExt (extname fp) (getExistingExtensions fs fp)
           fix := if (getExistingExtensions fs fp).length ≠ 1 then none
                  else some (Edit.insert (t.range1 - 1)
                    (canonicalExt (extname fp) (getExistingExtensions fs fp))) }) := by
  have hrp : resolvedPath t = fp := by rw [resolvedPath, hfp]; rfl
  have hEx : existingExts fs t = getExistingExtensions fs fp := by
    simp only [existingExts, hrp]
  have hE : extOf fs t = canonicalExt (extname fp) (getExistingExtensions fs fp) := by
    simp only [extOf, existingExts, hrp]
  have h1 : (resolvedPath t).isEmpty = false := by
    rw [hrp]
    simpa [List.isEmpty_iff] using hne
  have h3 : ¬((extname (resolvedPath t)).isEmpty = true ∧ (existingExts fs t).length ≠ 1) := by
    rw [hrp, hEx]
    rintro ⟨ha, hb⟩
    rcases hdet with hd | hd
    · rw [List.isEmpty_iff] at ha
      exact hd ha
    · exact hb hd
  rw [verify_eval h1 hsep h3]
  constructor
  · intro heq
    rw [if_neg, if_neg]
    · rintro ⟨hx, _⟩
      rw [hE] at hx
      exact always_ne_never (hstyle.symm.trans hx)
    · rintro ⟨_, hx⟩
      rw [hE, ← heq] at hx
      exact hx rfl
  · intro hne2
    rw [if_pos ⟨by rw [hE]; exact hstyle, by rw [hE]; exact fun hx => hne2 hx.symm⟩]
    rw [hE, hEx]

/-- Witness for C3: the mismatching specifier reports with the insertion fix. -/
theorem C3_always_branch_witness :
    verify cfgAlways fsOne tReq = some dReq := by
  have h := (C3_always_branch cfgAlways fsOne tReq ['/', 'p', '/', 'a', '.', 'j', 's']
    rfl (by decide) (by decide) (by decide) (by decide)).2 (by decide)
  simpa using h

/-- C4: for a determinable canonical extension under effective style `never`,
a `forbidExt` diagnostic with `data.ext` equal to the canonical extension is
reported exactly when the specifier's extension equals it, and the fix, when
offered, removes the range starting at
`node.range[0] + 1 + name.lastIndexOf(ext)` of length `ext.length`. -/
theorem C4_never_branch (cfg : Config) (fs : FS) (t : Target) (fp : List Char)
    (hfp : t.filePath = some fp) (hne : fp ≠ []) (hsep : hasSep t.name = true)
    (hdet : extname fp ≠ [] ∨ (getExistingExtensions fs fp).length = 1)
    (hstyle : styleFor cfg (canonicalExt (extname fp) (getExistingExtensions fs fp))
        = neverStyle) :
    (extname t.name ≠ canonicalExt (extname fp) (getExistingExtensions fs fp) →
       verify cfg fs t = none) ∧
    (extname t.name = canonicalExt (extname fp) (getExistingExtensions fs fp) →
       verify cfg fs t = some
         { messageId := MessageId.forbidExt
           ext := canonicalExt (extname fp) (getExistingExtensions fs fp)
           fix := if (getExistingExtensions fs fp).length ≠ 1 then none
                  else some (Edit.remove
                    (t.range0 + 1 + (lastIndexOf t.name
                      (canonicalExt (extname fp) (getExistingExtensions fs fp))).getD 0)
                    (t.range0 + 1 + (lastIndexOf t.name
                      (canonicalExt (extname fp) (getExistingExtensions fs fp))).getD 0
                      + (canonicalExt (extname fp)
                          (getExistingExtensions fs fp)).length)) }) := by
  have hrp : resolvedPath t = fp := by rw [resolvedPath, hfp]; rfl
  have hEx : existingExts fs t = getExistingExtensions fs fp := by
    simp only [existingExts, hrp]
  have hE : extOf fs t = canonicalExt (extname fp) (getExistingExtensions fs fp) := by
    simp only [extOf, existingExts, hrp]
  have h1 : (resolvedPath t).isEmpty = false := by
    rw [hrp]
    simpa [List.isEmpty_iff] using hne
  have h3 : ¬((extname (resolvedPath t)).isEmpty = true ∧ (existingExts fs t).length ≠ 1) := by
    rw [hrp, hEx]
    rintro ⟨ha, hb⟩
    rcases hdet with hd | hd
    · rw [List.isEmpty_iff] at ha
      exact hd ha
    · exact hb hd
  rw [verify_eval h1 hsep h3]
  constructor
  · intro hne2
    rw [if_neg, if_neg]
    · rintro ⟨hx, hy⟩
      rw [hE] at hy
      exact hne2 hy.symm
    · rintro ⟨hx, _⟩
      rw [hE] at hx
      exact always_ne_never (hx.symm.trans hstyle)
  · intro heq
    rw [if_neg, if_pos ⟨by rw [hE]; exact hstyle, by rw [hE]; exact heq.symm⟩]
    · rw [hE, hEx]
    · rintro ⟨hx, _⟩
      rw [hE] at hx
      exact always_ne_never (hx.symm.trans hstyle)

/-- Witness for C4: the matching specifier reports with the removal fix. -/
theorem C4_never_branch_witness :
    verify cfgNever fsOne tFor = some
      { messageId := MessageId.forbidExt
        ext := ['.', 'j', 's']
        fix := some (Edit.remove 4 7) } := by
  have h := (C4_never_branch cfgNever fsOne tFor ['/', 'p', '/', 'a', '.', 'j', 's']
    rfl (by decide) (by decide) (by decide) (by decide)).2 (by decide)
  simpa using h

/-- C5: whenever sibling discovery did not find exactly one extension, any
diagnostic that is produced carries no fix, even when the canonical extension
came from the resolved path's own extension. -/
theorem C5_no_fix_when_ambiguous (cfg : Config) (fs : FS) (t : Target) (d : Diagnostic)
    (fp : List Char) (hfp : t.filePath = some fp)
    (hlen : (getExistingExtensions fs fp).length ≠ 1)
    (h : verify cfg fs t = some d) : d.fix = none := by
  have hrp : resolvedPath t = fp := by rw [resolvedPath, hfp]; rfl
  have hlen' : (existingExts fs t).length ≠ 1 := by
    simpa [existingExts, hrp] using hlen
  obtain ⟨_, _, _, hbr⟩ := verify_some_inv h
  rcases hbr with ⟨_, _, rfl⟩ | ⟨_, _, rfl⟩ <;> simp [hlen']

/-- Witness for C5: two sibling files, resolved path has its own extension, so
a diagnostic is still produced but without a fix. -/
theorem C5_no_fix_when_ambiguous_witness :
    (Diagnostic.mk MessageId.requireExt ['.', 'j', 's'] none).fix = none :=
  C5_no_fix_when_ambiguous cfgAlways fsTwo tReq
    (Diagnostic.mk MessageId.requireExt ['.', 'j', 's'] none)
    ['/', 'p', '/', 'a', '.', 'j', 's'] rfl (by decide) (by decide)

/-- C6: an extension present in `overrides` uses the override style in place
of `defaultStyle`; an absent extension uses `defaultStyle`; and there is a
concrete target whose outcome flips between a configuration with the override
and one without it. -/
theorem C6_override_precedence :
    (∀ (cfg : Config) (ext s : List Char),
        cfg.overrideStyle ext = some s → s ≠ [] → styleFor cfg ext = s) ∧
    (∀ (cfg : Config) (ext : List Char),
        cfg.overrideStyle ext = none → styleFor cfg ext = cfg.defaultStyle) ∧
    verify cfgAlways fsOne tFor = none ∧ verify cfgOvr fsOne tFor ≠ none := by
  refine ⟨?_, ?_, by decide, by decide⟩
  · intro cfg ext s h hs
    simp [styleFor, h, List.isEmpty_iff, hs]
  · intro cfg ext h
    simp [styleFor, h]

/-- Witness for C6 at the concrete override configuration. -/
theorem C6_override_precedence_witness :
    styleFor cfgOvr ['.', 'j', 's'] = neverStyle :=
  C6_override_precedence.1 cfgOvr ['.', 'j', 's'] neverStyle (by decide) (by decide)

/-- C7: when the directory of the file cannot be listed, sibling discovery
returns the empty sequence (the error is swallowed, never propagated). -/
theorem C7_soft_fail (fs : FS) (filePath : List Char)
    (h : fs (dirname filePath) = none) :
    getExistingExtensions fs filePath = [] := by
  simp [getExistingExtensions, h]

/-- Witness for C7 on the always-failing filesystem. -/
theorem C7_soft_fail_witness :
    getExistingExtensions fsErr ['/', 'p', '/', 'a', '.', 'j', 's'] = [] :=
  C7_soft_fail fsErr ['/', 'p', '/', 'a', '.', 'j', 's'] rfl

/-- C8 (amended): applying an offered fix and re-running the checker on the
resulting target (same resolved path, same configuration, same directory
contents) yields no diagnostic, provided the fixed specifier's extension has
actually flipped to the required state: `path.extname` of the fixed text
equals the canonical extension exactly when the diagnostic was `requireExt`
(insertion), and differs from it when it was `forbidExt` (removal).  Without
that proviso the claim fails — see the counterexample, where removing the
final `.js` of `"./x.js.js"` leaves `"./x.js"`, which is reported again. -/
theorem C8_fix_idempotent (cfg : Config) (fs : FS) (t : Target) (d : Diagnostic) (e : Edit)
    (h : verify cfg fs t = some d) (hfix : d.fix = some e)
    (hrange : t.range1 = t.range0 + t.name.length + 2)
    (hpost : extname (fixedName t e) = d.ext ↔ d.messageId = MessageId.requireExt) :
    verify cfg fs (fixedTarget t e) = none := by
  obtain ⟨h1, h2, h3, hbr⟩ := verify_some_inv h
  have h1' : (resolvedPath (fixedTarget t e)).isEmpty = false := h1
  have h3' : ¬((extname (resolvedPath (fixedTarget t e))).isEmpty = true
      ∧ (existingExts fs (fixedTarget t e)).length ≠ 1) := h3
  rcases hbr with ⟨hstyle, hneq, hd⟩ | ⟨hstyle, heq, hd⟩
  · -- `always` branch: the fix appended the canonical extension.
    have hdm : d.messageId = MessageId.requireExt := by rw [hd]
    have hde : d.ext = extOf fs t := by rw [hd]
    have hfx : d.fix = if (existingExts fs t).length ≠ 1 then none
        else some (Edit.insert (t.range1 - 1) (extOf fs t)) := by rw [hd]
    rw [hfix] at hfx
    by_cases hlen : (existingExts fs t).length ≠ 1
    · rw [if_pos hlen] at hfx
      exact absurd hfx (by simp)
    rw [if_neg hlen] at hfx
    have he : e = Edit.insert (t.range1 - 1) (extOf fs t) := Option.some.inj hfx
    have hfn : fixedName t e = t.name ++ extOf fs t := by
      rw [he]
      exact fixedName_insert t (extOf fs t) hrange
    have hext2 : extname (fixedName t e) = extOf fs t := by
      have hp := hpost.mpr hdm
      rw [hde] at hp
      exact hp
    have h2' : hasSep (fixedTarget t e).name = true := by
      rw [fixedTarget_name, hfn]
      exact hasSep_append_left h2
    rw [verify_eval h1' h2' h3']
    rw [if_neg, if_neg]
    · rintro ⟨hx, _⟩
      rw [extOf_fixedTarget] at hx
      exact always_ne_never (hstyle.symm.trans hx)
    · rintro ⟨_, hx⟩
      apply hx
      rw [extOf_fixedTarget, fixedTarget_name]
      exact hext2.symm
  · -- `never` branch: the fixed specifier no longer carries the extension.
    have hdm : d.messageId = MessageId.forbidExt := by rw [hd]
    have hde : d.ext = extOf fs t := by rw [hd]
    have hnot : extname (fixedName t e) ≠ d.ext := by
      intro hcl
      have hr := hpost.mp hcl
      rw [hdm] at hr
      exact absurd hr (by decide)
    by_cases hsep2 : hasSep (fixedTarget t e).name = false
    · unfold verify
      by_cases hemp : (resolvedPath (fixedTarget t e)).isEmpty = true
      · rw [if_pos hemp]
      · rw [if_neg hemp, if_pos hsep2]
    · have h2' : hasSep (fixedTarget t e).name = true := by
        simpa using hsep2
      rw [verify_eval h1' h2' h3']
      rw [if_neg, if_neg]
      · rintro ⟨hx, hy⟩
        rw [extOf_fixedTarget, fixedTarget_name] at hy
        exact hnot (hy.symm.trans hde.symm)
      · rintro ⟨hx, _⟩
        rw [extOf_fixedTarget] at hx
        exact always_ne_never (hx.symm.trans hstyle)

/-- Counterexample to C8 as stated: under style `never` the specifier
`"./x.js.js"` (file `/p/x.js.js` on disk) is reported with a fix removing its
final `.js`; the fixed specifier `"./x.js"` still ends in the canonical
extension `.js` and re-running the checker on it reports again. -/
theorem C8_counterexample :
    verify cfgNever fsXX tXX = some
      { messageId := MessageId.forbidExt
        ext := ['.', 'j', 's']
        fix := some (Edit.remove 7 10) } ∧
    fixedName tXX (Edit.remove 7 10) = ['.', '/', 'x', '.', 'j', 's'] ∧
    verify cfgNever fsXX (fixedTarget tXX (Edit.remove 7 10)) ≠ none := by
  decide

/-- Witness for the amended C8: inserting `.js` into `"./a"` yields `"./a.js"`
and the re-run is clean. -/
theorem C8_fix_idempotent_witness :
    verify cfgAlways fsOne (fixedTarget tReq (Edit.insert 14 ['.', 'j', 's'])) = none :=
  C8_fix_idempotent cfgAlways fsOne tReq dReq (Edit.insert 14 ['.', 'j', 's'])
    (by decide) (by decide) (by decide) (by decide)

/-- C9 (amended): in the `never` branch, when the fix is constructed with a
non-empty canonical extension, `name.lastIndexOf(ext)` finds an occurrence of
the extension (it is never `-1`), the removed range is exactly that occurrence
shifted past the opening quote, and it lies entirely inside the literal's
source span.  (The original claim's stronger statements — that the occurrence
is a suffix at `name.length - ext.length` and that the removed range ends at
the closing quote — fail for specifiers with trailing separators, see the
counterexample.) -/
theorem C9_remove_within_literal (cfg : Config) (fs : FS) (t : Target) (d : Diagnostic)
    (s e : Nat) (h : verify cfg fs t = some d)
    (hm : d.messageId = MessageId.forbidExt)
    (hfix : d.fix = some (Edit.remove s e)) (hext : d.ext ≠ [])
    (hrange : t.range1 = t.range0 + t.name.length + 2) :
    ∃ idx, lastIndexOf t.name d.ext = some idx ∧
      occursAt d.ext t.name idx = true ∧
      s = t.range0 + 1 + idx ∧ e = s + d.ext.length ∧
      t.range0 + 1 ≤ s ∧ e ≤ t.range1 - 1 := by
  obtain ⟨_, _, _, hbr⟩ := verify_some_inv h
  rcases hbr with ⟨_, _, hd⟩ | ⟨hstyle, heq, hd⟩
  · rw [hd] at hm
    simp at hm
  · have hdext : d.ext = extOf fs t := by rw [hd]
    have hEne : extname t.name ≠ [] := by
      rw [← heq, ← hdext]
      exact hext
    obtain ⟨i, hi, hoc⟩ := extname_occurs t.name hEne
    have hoc' : occursAt (extOf fs t) t.name i = true := by
      rw [heq]
      exact hoc
    obtain ⟨j, hj⟩ := lastIndexOf_of_occurs hoc' hi
    obtain ⟨hocj, hjle⟩ := lastIndexOf_spec hj
    have hbound := occursAt_bound hocj hjle
    have hfx : d.fix = if (existingExts fs t).length ≠ 1 then none
        else some (Edit.remove
          (t.range0 + 1 + (lastIndexOf t.name (extOf fs t)).getD 0)
          (t.range0 + 1 + (lastIndexOf t.name (extOf fs t)).getD 0
            + (extOf fs t).length)) := by rw [hd]
    rw [hfix] at hfx
    by_cases hlen : (existingExts fs t).length ≠ 1
    · rw [if_pos hlen] at hfx
      exact absurd hfx (by simp)
    rw [if_neg hlen, hj] at hfx
    simp only [Option.getD_some, Option.some.injEq, Edit.remove.injEq] at hfx
    refine ⟨j, by rw [hdext]; exact hj, by rw [hdext]; exact hocj, hfx.1, ?_, ?_, ?_⟩
    · rw [hfx.2, hfx.1, hdext]
    · omega
    · omega

/-- Counterexample to C9 as stated: specifier `"./a.js/"` (trailing separator)
resolved to `/p/a.js` under style `never`.  The canonical extension `.js`
equals the specifier's extension, a fix is constructed, but
`lastIndexOf` finds the extension at index 3, not at
`name.length - ext.length = 4`; the extension is not a suffix of the
specifier, and the removed range `[4, 7)` does not end at the closing quote
(offset `range1 - 1 = 8`). -/
theorem C9_counterexample :
    verify cfgNever fsOne tSl = some
      { messageId := MessageId.forbidExt
        ext := ['.', 'j', 's']
        fix := some (Edit.remove 4 7) } ∧
    lastIndexOf tSl.name ['.', 'j', 's'] = some 3 ∧
    tSl.name.length - (['.', 'j', 's'] : List Char).length = 4 ∧
    List.isSuffixOf ['.', 'j', 's'] tSl.name = false ∧
    (7 : Nat) ≠ tSl.range1 - 1 := by
  decide

/-- Witness for the amended C9 at a concrete reporting target. -/
theorem C9_remove_within_literal_witness :
    ∃ idx, lastIndexOf tFor.name
        (Diagnostic.mk MessageId.forbidExt ['.', 'j', 's']
          (some (Edit.remove 4 7))).ext = some idx ∧
      occursAt (Diagnostic.mk MessageId.forbidExt ['.', 'j', 's']
          (some (Edit.remove 4 7))).ext tFor.name idx = true ∧
      4 = tFor.range0 + 1 + idx ∧
      7 = 4 + (Diagnostic.mk MessageId.forbidExt ['.', 'j', 's']
          (some (Edit.remove 4 7))).ext.length ∧
      tFor.range0 + 1 ≤ 4 ∧ 7 ≤ tFor.range1 - 1 :=
  C9_remove_within_literal cfgNever fsOne tFor
    (Diagnostic.mk MessageId.forbidExt ['.', 'j', 's'] (some (Edit.remove 4 7)))
    4 7 (by decide) (by decide) (by decide) (by decide) (by decide)

/-- C10: a run whose filename starts with `'<'` (virtual input) examines no
target and produces no diagnostic. -/
theorem C10_virtual_filename (filename : List Char) (cfg : Config) (fs : FS)
    (targets : List Target) (h : ['<'].isPrefixOf filename = true) :
    run filename cfg fs targets = [] := by
  simp [run, h]

/-- Witness for C10 on the filename `"<input>"` with a target that would
otherwise report. -/
theorem C10_virtual_filename_witness :
    run ['<', 'i', 'n', 'p', 'u', 't', '>'] cfgAlways fsOne [tReq] = [] :=
  C10_virtual_filename ['<', 'i', 'n', 'p', 'u', 't', '>'] cfgAlways fsOne [tReq] (by decide)

end FileExtRule
